import Mathlib

/-!
A shallow embedding of the metric ingestion and aggregation service in
src/main.go: the name validator, the line parser (together with models of
the Go standard library float and timestamp parsers it calls), the
aggregation store and its `update` operation, one iteration of the
connection handler loop, the admission semaphore, the scheduler control
loop, and the shared raw-ingestion counter.

Numbers: Go `float64` values are modelled by `GoFloat` below, with finite
values kept as exact rationals in lowest terms (`Frac`); rounding of
IEEE-754 binary64 arithmetic is not modelled, since no claim depends on
it.  Go strings are modelled as their sequences of code points
(`List Char`); `len` of a Go string is its UTF-8 byte length, modelled by
`utf8Len`.
-/

/-- Euclid's algorithm with explicit fuel, so that the kernel can reduce
it; `gcdAux (m + 1) m n` computes `gcd m n`. -/
def gcdAux : ℕ → ℕ → ℕ → ℕ
  | 0, _, n => n
  | _ + 1, 0, n => n
  | fuel + 1, m + 1, n => gcdAux fuel (n % (m + 1)) (m + 1)

/-- Greatest common divisor, kernel-computable. -/
def natGcd (m n : ℕ) : ℕ := gcdAux (m + 1) m n

/-- An exact rational: numerator and positive denominator, kept in lowest
terms by `Frac.norm`. -/
structure Frac where
  num : ℤ
  den : ℕ
  deriving DecidableEq

/-- Normalize a numerator/denominator pair to lowest terms. -/
def Frac.norm (n : ℤ) (d : ℕ) : Frac :=
  if d = 0 then ⟨0, 1⟩
  else
    let g := natGcd n.natAbs d
    ⟨n / (g : ℤ), d / g⟩

/-- Embed an integer. -/
def Frac.ofInt (n : ℤ) : Frac := ⟨n, 1⟩

/-- Exact rational addition. -/
def Frac.add (a b : Frac) : Frac :=
  Frac.norm (a.num * (b.den : ℤ) + b.num * (a.den : ℤ)) (a.den * b.den)

/-- Multiply by a natural number. -/
def Frac.mulNat (a : Frac) (n : ℕ) : Frac := Frac.norm (a.num * (n : ℤ)) a.den

/-- Divide by a natural number. -/
def Frac.divNat (a : Frac) (n : ℕ) : Frac := Frac.norm a.num (a.den * n)

/-- Negation. -/
def Frac.neg (a : Frac) : Frac := ⟨-a.num, a.den⟩

/-- Is `|a| ≥ bound` for a natural bound (used for the float64 overflow
check of the Go float parser). -/
def Frac.absGe (a : Frac) (bound : ℕ) : Bool := decide (bound * a.den ≤ a.num.natAbs)

/-- Model of a Go `float64` value: NaN, signed infinity, or a finite
value.  `inf true` is negative infinity. -/
inductive GoFloat : Type
  | nan : GoFloat
  | inf : Bool → GoFloat
  | finite : Frac → GoFloat
  deriving DecidableEq

/-- Float64 addition on the model: NaN propagates, opposite infinities
give NaN, an infinity absorbs finite values, finite values add exactly. -/
def GoFloat.add : GoFloat → GoFloat → GoFloat
  | .nan, _ => .nan
  | _, .nan => .nan
  | .inf s, .inf t => if s = t then .inf s else .nan
  | .inf s, .finite _ => .inf s
  | .finite _, .inf s => .inf s
  | .finite a, .finite b => .finite (a.add b)

/-- Float64 division by `float64(count)`; in `update` the divisor is the
new count, always a positive integer, which is the only case the code
exercises: NaN propagates, infinities keep their sign, finite values
divide exactly. -/
def GoFloat.divNat : GoFloat → ℕ → GoFloat
  | .nan, _ => .nan
  | .inf s, _ => .inf s
  | .finite a, n => .finite (a.divNat n)

/-- Is the value neither NaN nor an infinity. -/
def GoFloat.isFinite : GoFloat → Bool
  | .finite _ => true
  | _ => false

/-- UTF-8 byte length of a sequence of code points; this is what Go's
`len` returns on a string. -/
def utf8Len (l : List Char) : ℕ := (l.map Char.utf8Size).sum

/-- Character class test from the loop body of `validateName`
(src/main.go:77): digits, upper case letters, lower case letters, or the
hyphen. -/
def validRune (r : Char) : Bool :=
  (decide ('0' ≤ r) && decide (r ≤ '9')) ||
  (decide ('A' ≤ r) && decide (r ≤ 'Z')) ||
  (decide ('a' ≤ r) && decide (r ≤ 'z')) ||
  decide (r = '-')

/-- The `range` loop of `validateName` from the second code point on. -/
def validRuneLoop : List Char → Bool
  | [] => true
  | r :: rest => if !(validRune r) then false else validRuneLoop rest

/-- Embedding of `validateName` (src/main.go:64-82).  `len(str)` in Go is
the UTF-8 byte length; `for i, r := range str` iterates code points, and
`i == 0` holds exactly at the first code point, where the leading-hyphen
check applies before the character class check. -/
def validateName (str : List Char) : Bool :=
  if 64 < utf8Len str then false
  else
    match str with
    | [] => true
    | r :: rest =>
      if r = '-' then false
      else if !(validRune r) then false
      else validRuneLoop rest

/-- Lower-case an ASCII letter (Go's case-insensitive matching of the
special float values). -/
def lowerChar (c : Char) : Char :=
  if 'A' ≤ c ∧ c ≤ 'Z' then Char.ofNat (c.toNat + 32) else c

/-- Model of the `special` recognizer inside Go `strconv.ParseFloat`: the
whole input must be an optionally signed "inf" or "infinity", or an
unsigned "nan", all case-insensitive. -/
def parseSpecial (cs : List Char) : Option GoFloat :=
  match cs with
  | [] => none
  | c :: rest =>
    if c = '+' ∨ c = '-' then
      let low := rest.map lowerChar
      if low = ['i', 'n', 'f'] ∨ low = ['i', 'n', 'f', 'i', 'n', 'i', 't', 'y'] then
        some (.inf (c = '-'))
      else none
    else
      let low := cs.map lowerChar
      if low = ['i', 'n', 'f'] ∨ low = ['i', 'n', 'f', 'i', 'n', 'i', 't', 'y'] then
        some (.inf false)
      else if low = ['n', 'a', 'n'] then some .nan
      else none

/-- Value of a list of decimal digit characters. -/
def digitsVal (ds : List Char) : ℕ := ds.foldl (fun a c => a * 10 + (c.toNat - 48)) 0

/-- Model of the decimal-literal fragment of Go `strconv.ParseFloat`:
optional sign, digits with an optional decimal point (at least one digit
overall), and an optional `e`/`E` exponent with optional sign.
Hexadecimal literals and digit-separating underscores, which Go also
accepts, are not modelled. -/
def parseDec (cs : List Char) : Option Frac :=
  let signRest : Bool × List Char :=
    match cs with
    | '-' :: r => (true, r)
    | '+' :: r => (false, r)
    | _ => (false, cs)
  let ip := signRest.2.span Char.isDigit
  let fp : List Char × List Char :=
    match ip.2 with
    | '.' :: r => r.span Char.isDigit
    | _ => ([], ip.2)
  if ip.1 = [] ∧ fp.1 = [] then none
  else
    let mant := (Frac.ofInt (digitsVal (ip.1 ++ fp.1) : ℤ)).divNat (10 ^ fp.1.length)
    let signed := if signRest.1 then mant.neg else mant
    match fp.2 with
    | [] => some signed
    | e :: r =>
      if e = 'e' ∨ e = 'E' then
        let esignRest : Bool × List Char :=
          match r with
          | '-' :: rr => (true, rr)
          | '+' :: rr => (false, rr)
          | _ => (false, r)
        let ed := esignRest.2.span Char.isDigit
        if ed.1 = [] ∨ ed.2 ≠ [] then none
        else
          let ex := digitsVal ed.1
          some (if esignRest.1 then signed.divNat (10 ^ ex) else signed.mulNat (10 ^ ex))
      else none

/-- Smallest magnitude that rounds to an infinity in binary64, written as
a numeral so that it evaluates without deep recursion; its value is
`2 ^ 1024 - 2 ^ 970`.  Go `strconv.ParseFloat` reports a range error at
or beyond it. -/
def float64Overflow : ℕ := 179769313486231580793728971405303415079934132710037826936173778980444968292764750946649017977587207096330286416692887910946555547851940402630657488671505820681908902000708383676273854845817711531764475730270069855571366959622842914819860834936475292719074168444365510704342711559699508093042880177904174497792

theorem float64Overflow_eq : float64Overflow = 2 ^ 1024 - 2 ^ 970 := by norm_num [float64Overflow]

/-- Model of Go `strconv.ParseFloat(s, 64)` as used by `parseMetric`
(src/main.go:98): `none` is a parse (or range) error.  Special values are
tried first, then the decimal literal form; magnitudes that would round
to an infinity are range errors. -/
def parseFloat (cs : List Char) : Option GoFloat :=
  match parseSpecial cs with
  | some f => some f
  | none =>
    match parseDec cs with
    | none => none
    | some q => if q.absGe float64Overflow then none else some (.finite q)

/-- Gregorian leap year rule, as in Go's `time` package. -/
def isLeap (y : ℕ) : Bool := y % 4 = 0 && (decide (y % 100 ≠ 0) || y % 400 = 0)

/-- Days in the given month of the given year. -/
def daysInMonth (y m : ℕ) : ℕ :=
  match m with
  | 2 => if isLeap y then 29 else 28
  | 4 => 30
  | 6 => 30
  | 9 => 30
  | 11 => 30
  | _ => 31

/-- Days strictly before the given month in the given year. -/
def daysBeforeMonth (y m : ℕ) : ℕ :=
  let base : ℕ :=
    match m with
    | 1 => 0
    | 2 => 31
    | 3 => 59
    | 4 => 90
    | 5 => 120
    | 6 => 151
    | 7 => 181
    | 8 => 212
    | 9 => 243
    | 10 => 273
    | 11 => 304
    | _ => 334
  if isLeap y ∧ 3 ≤ m then base + 1 else base

/-- Days from the Unix epoch 1970-01-01 to the given proleptic Gregorian
calendar date (negative for earlier dates). -/
def daysFromCivil (y m d : ℕ) : ℤ :=
  let yz : ℤ := (y : ℤ) - 1
  365 * yz + Int.fdiv yz 4 - Int.fdiv yz 100 + Int.fdiv yz 400
    + (daysBeforeMonth y m : ℤ) + (d : ℤ) - 1 - 719162

/-- Read exactly `k` decimal digits (Go's `getnum` with `fixed = true`,
used for the month, day, minute and second fields of the layout). -/
def getnum : ℕ → ℕ → List Char → Option (ℕ × List Char)
  | 0, acc, cs => some (acc, cs)
  | k + 1, acc, c :: cs =>
    if c.isDigit then getnum k (acc * 10 + (c.toNat - 48)) cs else none
  | _ + 1, _, [] => none

/-- Read one or two decimal digits (Go's `getnum` with `fixed = false`,
used for the hour field of layout `"15"`): greedy, consuming the second
character exactly when it is also a digit. -/
def getnum1or2 : List Char → Option (ℕ × List Char)
  | [] => none
  | [c1] => if c1.isDigit then some (c1.toNat - 48, []) else none
  | c1 :: c2 :: cs =>
    if c1.isDigit then
      if c2.isDigit then some ((c1.toNat - 48) * 10 + (c2.toNat - 48), cs)
      else some (c1.toNat - 48, c2 :: cs)
    else none

/-- Go `time.Parse` accepts a fractional second immediately after the
seconds field even when the layout signifies none: a `.` or `,` followed
by at least one digit, with the whole digit run consumed.  Otherwise the
input is left untouched. -/
def skipFracSecond : List Char → List Char
  | c :: d :: cs =>
    if (c = '.' ∨ c = ',') ∧ d.isDigit then (d :: cs).dropWhile Char.isDigit
    else c :: d :: cs
  | cs => cs

/-- Require one literal character. -/
def expectChar : Char → List Char → Option (List Char)
  | c, d :: cs => if d = c then some cs else none
  | _, [] => none

/-- Model of Go `time.Parse("2006-01-02T15:04:05Z", s)` as used by
`parseMetric` (src/main.go:104): a four-digit year, two-digit month, day,
minute and second fields, a one-or-two-digit hour (layout `"15"` parses
with `getnum(value, false)`), an optional fractional second after the
seconds field (accepted by `Parse` even though the layout has none), the
literal separators with a literal trailing `Z`, no trailing text, and the
range checks Go applies (month 1-12, day within the month, hour below 24,
minute and second below 60).  The result is the instant as seconds since
the Unix epoch, in UTC; the sub-second part, which no claim observes, is
dropped by this seconds-granularity model. -/
def parseTime (cs : List Char) : Option ℤ := do
  let (y, r) ← getnum 4 0 cs
  let r ← expectChar '-' r
  let (mo, r) ← getnum 2 0 r
  let r ← expectChar '-' r
  let (d, r) ← getnum 2 0 r
  let r ← expectChar 'T' r
  let (h, r) ← getnum1or2 r
  let r ← expectChar ':' r
  let (mi, r) ← getnum 2 0 r
  let r ← expectChar ':' r
  let (sec, r) ← getnum 2 0 r
  let r := skipFracSecond r
  let r ← expectChar 'Z' r
  guard (r = [])
  guard (1 ≤ mo ∧ mo ≤ 12)
  guard (1 ≤ d ∧ d ≤ daysInMonth y mo)
  guard (h ≤ 23 ∧ mi ≤ 59 ∧ sec ≤ 59)
  return daysFromCivil y mo d * 86400 + (h : ℤ) * 3600 + (mi : ℤ) * 60 + (sec : ℤ)

/-- Embedding of the `metric` struct (src/main.go:23-29); `time` is the
parsed instant as seconds since the Unix epoch. -/
structure metric where
  name : List Char
  value : GoFloat
  mean : GoFloat
  time : ℤ
  count : ℕ
  deriving DecidableEq

deriving instance DecidableEq for Except

/-- The four error results of `parseMetric` (src/main.go:88,94,100,106). -/
inductive ParseErr : Type
  | missingValues : ParseErr
  | invalidName : ParseErr
  | valueNotFloat : ParseErr
  | timeNotIso : ParseErr
  deriving DecidableEq

/-- Splitting on the tab character, as Go's `strings.Split(line, "\t")`:
the empty input yields one empty field. -/
def splitTab : List Char → List (List Char)
  | [] => [[]]
  | c :: rest =>
    let r := splitTab rest
    if c = '\t' then [] :: r
    else
      match r with
      | h :: t => (c :: h) :: t
      | [] => [[c]]

/-- Embedding of `parseMetric` (src/main.go:85-110): split on tab,
require exactly three fields, validate the name, parse the value, parse
the timestamp, in that order; on success the metric carries the parsed
fields with `mean` set to the value and `count` set to 1.  The Go code
checks `len(data) != 3` and then indexes `data[0]`, `data[1]`, `data[2]`,
which the three-element pattern expresses. -/
def parseMetric (line : List Char) : Except ParseErr metric :=
  match splitTab line with
  | [nameF, valueF, timeF] =>
    if validateName nameF = false then .error .invalidName
    else
      match parseFloat valueF with
      | none => .error .valueNotFloat
      | some v =>
        match parseTime timeF with
        | none => .error .timeNotIso
        | some t => .ok ⟨nameF, v, v, t, 1⟩
  | _ => .error .missingValues

/-- The aggregation store contents: the `data map[string]metric` field of
the `store` struct (src/main.go:34-36), as an association list with at
most one binding per name (all writes go through `storeSet`). -/
abbrev Store : Type := List (List Char × metric)

/-- Map lookup `s.data[name]`. -/
def storeFind : Store → List Char → Option metric
  | [], _ => none
  | (k, v) :: t, n => if k = n then some v else storeFind t n

/-- Map assignment `s.data[name] = m`: replace the binding if the key is
present, otherwise add it. -/
def storeSet : Store → List Char → metric → Store
  | [], n, m => [(n, m)]
  | (k, v) :: t, n, m => if k = n then (k, m) :: t else (k, v) :: storeSet t n m

/-- Embedding of `(*store).update` (src/main.go:46-56): if a metric with
the same name exists, the incoming metric's value becomes the running sum,
its count becomes the old count plus one and its mean is recomputed as
sum over count; the (possibly rewritten) metric is then stored under its
name.  The second component is the function's error result, which is
always `nil`. -/
def update (s : Store) (m : metric) : Store × Option String :=
  let m' : metric :=
    match storeFind s m.name with
    | some cm =>
      let v := GoFloat.add cm.value m.value
      let c := cm.count + 1
      { m with value := v, count := c, mean := GoFloat.divNat v c }
    | none => m
  (storeSet s m.name m', none)

/-- Capacity of the admission semaphore: `make(semaphore, 10)`
(src/main.go:172), matching `const maxConnections = 10`. -/
def gateCapacity : ℕ := 10

/-- Transitions of the admission semaphore (src/main.go:112-136), whose
state is the number of filled slots of the buffered channel: `P(1)`
(`Wait`, called by `main` before each accept) sends into the channel and
blocks while it is full; `V(1)` (`Signal`, deferred by every
`connHandler`) receives and blocks while it is empty. -/
inductive SemStep : ℕ → ℕ → Prop
  | acquire (n : ℕ) : n < gateCapacity → SemStep n (n + 1)
  | release (n : ℕ) : 0 < n → SemStep n (n - 1)

/-- Semaphore states reachable from the empty channel at startup. -/
inductive SemReach : ℕ → Prop
  | init : SemReach 0
  | step (n n' : ℕ) : SemReach n → SemStep n n' → SemReach n'

/-- The two kinds of failure `reader.ReadBytes` can report: orderly end
of stream (`io.EOF`) or any other read error. -/
inductive ReadErr : Type
  | eof : ReadErr
  | other : ReadErr
  deriving DecidableEq

/-- What one iteration of the `connHandler` loop does with one read
result.  Every `terminate` action closes the connection and returns from
the handler, which runs the deferred `s.Signal()` releasing the admission
slot; `dropFiltered` and `handoff` continue the loop. -/
inductive WorkerAction : Type
  | terminateEOF : WorkerAction
  | terminateEmpty : WorkerAction
  | terminateParse : ParseErr → WorkerAction
  | dropFiltered : WorkerAction
  | handoff : metric → WorkerAction
  deriving DecidableEq

/-- Does the action end the worker (closing the connection and releasing
the admission slot via the deferred `Signal`)? -/
def terminates : WorkerAction → Bool
  | .terminateEOF => true
  | .terminateEmpty => true
  | .terminateParse _ => true
  | .dropFiltered => false
  | .handoff _ => false

/-- Is the byte one of the line terminators trimmed by the handler? -/
def isCRLF (c : Char) : Bool := decide (c = '\r') || decide (c = '\n')

/-- Embedding of `bytes.Trim(b, "\r\n")` (src/main.go:201): remove the
leading and the trailing run of CR/LF bytes. -/
def trimCRLF (b : List Char) : List Char :=
  ((b.dropWhile isCRLF).reverse.dropWhile isCRLF).reverse

/-- The time-window test of src/main.go:217-218: drop the record when its
timestamp is before `now - 60s` or after `now`.  The Go expression calls
`time.Now()` twice; the model evaluates both calls at the same instant
`now` (`UTC()` does not change the instant). -/
def timeFilterDrop (now t : ℤ) : Bool := decide (t < now - 60) || decide (now < t)

/-- Embedding of one iteration of the `connHandler` loop
(src/main.go:189-227) on the result of one `ReadBytes` call, the bytes
`b` and the error: an `io.EOF` error terminates the worker at once; any
other error is not handled — control falls through to process `b` exactly
as after a successful read.  Then the trimmed line is checked for
emptiness, parsed, time-filtered, and handed off. -/
def connStep (now : ℤ) (b : List Char) (err : Option ReadErr) : WorkerAction :=
  match err with
  | some .eof => .terminateEOF
  | _ =>
    let line := trimCRLF b
    if line = [] then .terminateEmpty
    else
      match parseMetric line with
      | .error e => .terminateParse e
      | .ok m => if timeFilterDrop now m.time then .dropFiltered else .handoff m

/-- The three event sources of the scheduler's `select` loop
(src/main.go:147-162). -/
inductive SchedEvent : Type
  | handoff : metric → SchedEvent
  | rawTick : SchedEvent
  | flushTick : SchedEvent
  deriving DecidableEq

/-- Scheduler-owned state: the store contents and the batches drained at
past flush ticks (oldest first).  The raw counter lives outside this loop
(see `RawStep`). -/
structure SchedState where
  store : Store
  flushed : List Store
  deriving DecidableEq

/-- One step of the scheduler control loop (src/main.go:147-162): a
hand-off arrival is folded into the store; a raw tick reads and resets
the raw counter (modelled separately by `RawStep`) and leaves the store
alone; a flush tick emits the current store contents and empties the
store. -/
def schedStep (st : SchedState) (e : SchedEvent) : SchedState :=
  match e with
  | .handoff m => { st with store := (update st.store m).1 }
  | .rawTick => st
  | .flushTick => { store := [], flushed := st.flushed ++ [st.store] }

/-- Run the scheduler loop from process start (empty store) over a
sequence of events. -/
def runSched (evs : List SchedEvent) : SchedState :=
  evs.foldl schedStep ⟨[], []⟩

/-- Total of the `count` fields over the whole store. -/
def totalCount : Store → ℕ
  | [] => 0
  | (_, m) :: t => m.count + totalCount t

/-- Total of the `count` fields over all drained batches. -/
def flushedTotal (st : SchedState) : ℕ := (st.flushed.map totalCount).sum

/-- Number of hand-off events in a scheduler event sequence. -/
def countHandoffs : List SchedEvent → ℕ
  | [] => 0
  | .handoff _ :: t => countHandoffs t + 1
  | _ :: t => countHandoffs t

/-- Decimal digits of a natural number, with fuel (kernel-computable). -/
def natDigitsAux : ℕ → ℕ → List Char → List Char
  | 0, _, acc => acc
  | fuel + 1, n, acc =>
    let d := Char.ofNat (48 + n % 10)
    if n < 10 then d :: acc else natDigitsAux fuel (n / 10) (d :: acc)

/-- Decimal representation of a natural number. -/
def natRepr (n : ℕ) : String := String.mk (natDigitsAux (n + 1) n [])

/-- Decimal representation of an integer. -/
def intRepr : ℤ → String
  | .ofNat n => natRepr n
  | .negSucc n => "-" ++ natRepr (n + 1)

/-- Rendering of a float64 value by Go's `fmt` `%v` verb, abbreviated:
integral values print as plain integers (as Go does), and the exact digit
rendering of non-integral values is not modelled (no claim depends on
it); the special values print as Go prints them. -/
def goFloatRepr : GoFloat → String
  | .nan => "NaN"
  | .inf false => "+Inf"
  | .inf true => "-Inf"
  | .finite f => if f.den = 1 then intRepr f.num else intRepr f.num ++ "/" ++ natRepr f.den

/-- Model of `fmt.Fprintln(w, a, b, c, ...)`: the operands joined by
single spaces, with a trailing newline. -/
def fprintlnJoin : List String → String
  | [] => "\n"
  | [p] => p ++ "\n"
  | p :: rest => p ++ " " ++ fprintlnJoin rest

/-- The lines emitted by the flush tick (src/main.go:157-159): one
`fmt.Fprintln(os.Stdout, m.name, "\t", m.mean)` per metric in the store,
in store order. -/
def flushOutput (batch : Store) : List String :=
  batch.map fun p => fprintlnJoin [String.mk p.2.name, "\t", goFloatRepr p.2.mean]

/-- State of the shared raw-ingestion counter *raw counter* and its
reporting (src/main.go:151-153, 226): `raw` is the atomic `rawCount`;
`pending` is the value the scheduler has loaded but not yet reported and
reset; `reported` sums all values printed so far; `incrs` is a ghost
count of all `atomic.AddUint64(&rawCount, 1)` calls made by workers. -/
structure RawState where
  raw : ℕ
  pending : Option ℕ
  reported : ℕ
  incrs : ℕ
  deriving DecidableEq

/-- Interleaved atomic steps on the raw counter: a worker increments it
after a hand-off; at a raw tick the scheduler first loads it
(`atomic.LoadUint64`), prints the loaded value, and then separately
stores zero (`atomic.StoreUint64(&rawCount, 0)`).  Worker increments may
interleave between the load and the store. -/
inductive RawStep : RawState → RawState → Prop
  | incr (s : RawState) :
      RawStep s ⟨s.raw + 1, s.pending, s.reported, s.incrs + 1⟩
  | load (s : RawState) : s.pending = none →
      RawStep s ⟨s.raw, some s.raw, s.reported, s.incrs⟩
  | store0 (s : RawState) (v : ℕ) : s.pending = some v →
      RawStep s ⟨0, none, s.reported + v, s.incrs⟩

/-- Raw-counter states reachable from process start. -/
inductive RawReach : RawState → Prop
  | init : RawReach ⟨0, none, 0, 0⟩
  | step (s s' : RawState) : RawReach s → RawStep s s' → RawReach s'

/-- The name predicate claimed by the specification (section 4.1), stated
from the specification's words for comparison with `validateName`:
nonempty, at most 64 characters, first character alphanumeric, remaining
characters alphanumeric or hyphen. -/
def specValidName (str : List Char) : Bool :=
  match str with
  | [] => false
  | r :: rest =>
    decide (str.length ≤ 64) && (validRune r && !(decide (r = '-'))) && rest.all validRune

/-- The predicate `validateName` actually decides (the amended claim C2):
UTF-8 byte length at most 64, every character alphanumeric or hyphen, and
the first character, when there is one, not a hyphen.  In particular the
empty name is accepted. -/
def amendedValidName (str : List Char) : Bool :=
  decide (utf8Len str ≤ 64) &&
  (match str with
   | [] => true
   | r :: _ => !(decide (r = '-'))) &&
  str.all validRune

theorem storeFind_storeSet_self (s : Store) (n : List Char) (m : metric) :
    storeFind (storeSet s n m) n = some m := by
  induction s with
  | nil => simp [storeSet, storeFind]
  | cons p t ih =>
    obtain ⟨k, v⟩ := p
    by_cases hk : k = n
    · simp [storeSet, storeFind, hk]
    · simp [storeSet, storeFind, hk, ih]

theorem storeFind_storeSet_other (s : Store) (n n' : List Char) (m : metric)
    (h : n' ≠ n) :
    storeFind (storeSet s n m) n' = storeFind s n' := by
  induction s with
  | nil =>
    have hne : ¬ n = n' := fun he => h he.symm
    simp [storeSet, storeFind, hne]
  | cons p t ih =>
    obtain ⟨k, v⟩ := p
    by_cases hk : k = n
    · subst hk
      have hne : ¬ k = n' := fun he => h he.symm
      simp [storeSet, storeFind, hne]
    · simp only [storeSet, if_neg hk, storeFind]
      by_cases hk' : k = n'
      · simp [hk']
      · simp [hk', ih]

/-- C1: folding is total and computes the running aggregate.  For every
store state and every record (a metric fresh from `parseMetric`, so with
`count = 1` and `mean` equal to its value), `update` returns no error;
when an aggregate for the record's name exists it is replaced by one with
the summed value, incremented count, recomputed mean, and the record's
timestamp; otherwise a fresh aggregate with sum and mean equal to the
value, count 1 and the record's timestamp is created.  Aggregates under
other names are untouched. -/
theorem fold_running_aggregate (s : Store) (m : metric)
    (h1 : m.count = 1) (h2 : m.mean = m.value) :
    (update s m).2 = none ∧
    storeFind (update s m).1 m.name =
      some (match storeFind s m.name with
        | some cm =>
          { name := m.name, value := GoFloat.add cm.value m.value,
            mean := GoFloat.divNat (GoFloat.add cm.value m.value) (cm.count + 1),
            time := m.time, count := cm.count + 1 }
        | none =>
          { name := m.name, value := m.value, mean := m.value,
            time := m.time, count := 1 }) ∧
    (∀ n, n ≠ m.name → storeFind (update s m).1 n = storeFind s n) := by
  refine ⟨rfl, ?_, ?_⟩
  · cases h : storeFind s m.name with
    | some cm => simp [update, h, storeFind_storeSet_self]
    | none =>
      obtain ⟨nm, v, mean, tm, c⟩ := m
      simp only at h1 h2
      subst h1
      subst h2
      simp [update, h, storeFind_storeSet_self]
  · intro n hn
    cases h : storeFind s m.name with
    | some cm => simp [update, h, storeFind_storeSet_other _ _ _ _ hn]
    | none => simp [update, h, storeFind_storeSet_other _ _ _ _ hn]

/-- Witness for C1 at the spec's concrete example: folding values 10, 20,
30 under the name "x" (timestamps 10, 20, 30) yields sum 60, count 3,
mean 20, and the last timestamp. -/
theorem fold_running_aggregate_witness :
    (update (update (update ([] : Store)
        ⟨"x".data, .finite ⟨10, 1⟩, .finite ⟨10, 1⟩, 10, 1⟩).1
        ⟨"x".data, .finite ⟨20, 1⟩, .finite ⟨20, 1⟩, 20, 1⟩).1
        ⟨"x".data, .finite ⟨30, 1⟩, .finite ⟨30, 1⟩, 30, 1⟩).2 = none ∧
    storeFind (update (update (update ([] : Store)
        ⟨"x".data, .finite ⟨10, 1⟩, .finite ⟨10, 1⟩, 10, 1⟩).1
        ⟨"x".data, .finite ⟨20, 1⟩, .finite ⟨20, 1⟩, 20, 1⟩).1
        ⟨"x".data, .finite ⟨30, 1⟩, .finite ⟨30, 1⟩, 30, 1⟩).1 "x".data =
      some ⟨"x".data, .finite ⟨60, 1⟩, .finite ⟨20, 1⟩, 30, 3⟩ := by
  have h := fold_running_aggregate
    (update (update ([] : Store)
        ⟨"x".data, .finite ⟨10, 1⟩, .finite ⟨10, 1⟩, 10, 1⟩).1
        ⟨"x".data, .finite ⟨20, 1⟩, .finite ⟨20, 1⟩, 20, 1⟩).1
    ⟨"x".data, .finite ⟨30, 1⟩, .finite ⟨30, 1⟩, 30, 1⟩ rfl rfl
  exact ⟨h.1, h.2.1.trans (by decide)⟩

theorem validRuneLoop_eq_all (l : List Char) : validRuneLoop l = l.all validRune := by
  induction l with
  | nil => rfl
  | cons r rest ih =>
    cases h : validRune r <;> simp [validRuneLoop, h, ih]

/-- Counterexample to C2: the claim says `isValidName` returns false on
the empty string, but `validateName` returns true on it (the loop body
never runs), while the specification's predicate rejects it. -/
theorem validateName_empty_counterexample :
    validateName [] = true ∧ specValidName [] = false := by decide

/-- C2 as amended: `validateName` decides exactly the predicate "UTF-8
byte length at most 64, no leading hyphen, every character in
`[A-Za-z0-9-]`", which accepts the empty string. -/
theorem validateName_amended (str : List Char) : validateName str = amendedValidName str := by
  unfold validateName amendedValidName
  by_cases h64 : 64 < utf8Len str
  · have hle : ¬ utf8Len str ≤ 64 := by omega
    simp [h64, hle]
  · have hle : utf8Len str ≤ 64 := by omega
    simp only [if_neg h64, decide_eq_true hle, Bool.true_and]
    cases str with
    | nil => simp
    | cons r rest =>
      by_cases hr : r = '-'
      · simp [hr]
      · simp only [if_neg hr, decide_eq_false hr, Bool.not_false, Bool.true_and]
        cases h : validRune r
        · simp [h]
        · simp [h, validRuneLoop_eq_all]

/-- C5: in every reachable semaphore state at most `gateCapacity = 10`
acquires are outstanding; an acquire from the full state is impossible (a
blocked `P(1)`), while a release from the full state and a subsequent
acquire are both possible steps. -/
theorem admission_gate_bound (n : ℕ) (h : SemReach n) :
    n ≤ gateCapacity ∧
    ¬ SemStep gateCapacity (gateCapacity + 1) ∧
    SemStep gateCapacity (gateCapacity - 1) ∧
    SemStep (gateCapacity - 1) gateCapacity := by
  refine ⟨?_, ?_, ?_, ?_⟩
  · induction h with
    | init => simp [gateCapacity]
    | step n n' hr hs ih =>
      cases hs with
      | acquire hlt => omega
      | release hpos => omega
  · intro hs
    cases hs with
    | acquire hlt => simp [gateCapacity] at hlt
  · exact SemStep.release gateCapacity (by simp [gateCapacity])
  · exact SemStep.acquire (gateCapacity - 1) (by simp [gateCapacity])

/-- Witness for C5 at the reachable state with one outstanding acquire. -/
theorem admission_gate_bound_witness :
    1 ≤ gateCapacity ∧
    ¬ SemStep gateCapacity (gateCapacity + 1) ∧
    SemStep gateCapacity (gateCapacity - 1) ∧
    SemStep (gateCapacity - 1) gateCapacity :=
  admission_gate_bound 1
    (SemReach.step 0 1 SemReach.init (SemStep.acquire 0 (by simp [gateCapacity])))

theorem timeFilterDrop_false_iff (now t : ℤ) :
    timeFilterDrop now t = false ↔ (now - 60 ≤ t ∧ t ≤ now) := by
  simp [timeFilterDrop]

/-- C3: for a line that parses to a record, one handler iteration hands
the record off exactly when `now - 60 ≤ timestamp ≤ now`, both bounds
inclusive; a record outside the window is dropped by continuing the loop,
which neither closes the connection nor ends the worker, and a hand-off
does not end the worker either. -/
theorem window_filter_accepts_iff (now : ℤ) (b : List Char) (m : metric)
    (h : parseMetric (trimCRLF b) = .ok m) :
    (connStep now b none = .handoff m ↔ (now - 60 ≤ m.time ∧ m.time ≤ now)) ∧
    ((m.time < now - 60 ∨ now < m.time) → connStep now b none = .dropFiltered) ∧
    terminates WorkerAction.dropFiltered = false ∧
    terminates (WorkerAction.handoff m) = false := by
  have hne : ¬ trimCRLF b = [] := by
    intro he
    rw [he] at h
    simp [parseMetric, splitTab] at h
  have hc : connStep now b none =
      (if timeFilterDrop now m.time then .dropFiltered else .handoff m) := by
    simp [connStep, hne, h]
  refine ⟨?_, ?_, rfl, rfl⟩
  · constructor
    · intro hh
      rw [hc] at hh
      cases hd : timeFilterDrop now m.time
      · exact (timeFilterDrop_false_iff now m.time).mp hd
      · simp [hd] at hh
    · intro hw
      have hd : timeFilterDrop now m.time = false :=
        (timeFilterDrop_false_iff now m.time).mpr hw
      rw [hc, hd]
      simp
  · intro hout
    have hd : timeFilterDrop now m.time = true := by
      cases hdd : timeFilterDrop now m.time
      · have := (timeFilterDrop_false_iff now m.time).mp hdd
        omega
      · rfl
    rw [hc, hd]
    simp

/-- Witness for C3 at the spec's boundary cases, with `now` the Unix
epoch: a record stamped exactly `now` and one stamped `now - 59` are
handed off; records stamped `now - 61` and `now + 1` are dropped. -/
theorem window_filter_boundary_witness :
    connStep 0 "cpu\t1\t1970-01-01T00:00:00Z".data none =
      .handoff ⟨"cpu".data, .finite ⟨1, 1⟩, .finite ⟨1, 1⟩, 0, 1⟩ ∧
    connStep 0 "cpu\t1\t1969-12-31T23:59:01Z".data none =
      .handoff ⟨"cpu".data, .finite ⟨1, 1⟩, .finite ⟨1, 1⟩, -59, 1⟩ ∧
    connStep 0 "cpu\t1\t1969-12-31T23:58:59Z".data none = .dropFiltered ∧
    connStep 0 "cpu\t1\t1970-01-01T00:00:01Z".data none = .dropFiltered := by
  refine ⟨?_, ?_, ?_, ?_⟩
  · exact (window_filter_accepts_iff 0 "cpu\t1\t1970-01-01T00:00:00Z".data
      ⟨"cpu".data, .finite ⟨1, 1⟩, .finite ⟨1, 1⟩, 0, 1⟩ (by decide)).1.mpr (by decide)
  · exact (window_filter_accepts_iff 0 "cpu\t1\t1969-12-31T23:59:01Z".data
      ⟨"cpu".data, .finite ⟨1, 1⟩, .finite ⟨1, 1⟩, -59, 1⟩ (by decide)).1.mpr (by decide)
  · exact (window_filter_accepts_iff 0 "cpu\t1\t1969-12-31T23:58:59Z".data
      ⟨"cpu".data, .finite ⟨1, 1⟩, .finite ⟨1, 1⟩, -61, 1⟩ (by decide)).2.1 (.inl (by decide))
  · exact (window_filter_accepts_iff 0 "cpu\t1\t1970-01-01T00:00:01Z".data
      ⟨"cpu".data, .finite ⟨1, 1⟩, .finite ⟨1, 1⟩, 1, 1⟩ (by decide)).2.1 (.inr (by decide))

/-- Counterexample to C6: an interleaving in which a worker increment
lands between the scheduler's load of the raw counter and its reset to
zero.  The reachable state has the counter reset (`raw = 0`), no report
in progress (`pending = none`), two increments performed, but a reported
total of only 1: the second increment is counted in no reported interval,
so the raw-counter reset is not atomic with respect to concurrent
increments. -/
theorem raw_reset_lost_increment_counterexample :
    RawReach ⟨0, none, 1, 2⟩ ∧ 1 + 0 ≠ 2 := by
  constructor
  · have s1 : RawReach ⟨1, none, 0, 1⟩ :=
      RawReach.step _ _ RawReach.init (RawStep.incr ⟨0, none, 0, 0⟩)
    have s2 : RawReach ⟨1, some 1, 0, 1⟩ :=
      RawReach.step _ _ s1 (RawStep.load ⟨1, none, 0, 1⟩ rfl)
    have s3 : RawReach ⟨2, some 1, 0, 2⟩ :=
      RawReach.step _ _ s2 (RawStep.incr ⟨1, some 1, 0, 1⟩)
    exact RawReach.step _ _ s3 (RawStep.store0 ⟨2, some 1, 0, 2⟩ 1 rfl)
  · decide

theorem totalCount_update (s : Store) (m : metric) (h1 : m.count = 1) :
    totalCount (update s m).1 = totalCount s + 1 := by
  induction s with
  | nil => simp [update, storeFind, storeSet, totalCount, h1]
  | cons p t ih =>
    obtain ⟨k, cm⟩ := p
    by_cases hk : k = m.name
    · subst hk
      simp [update, storeFind, storeSet, totalCount]
      omega
    · have hstep : (update ((k, cm) :: t) m).1 = (k, cm) :: (update t m).1 := by
        simp [update, storeFind, storeSet, hk]
      rw [hstep]
      simp only [totalCount]
      rw [ih]
      omega

/-- C6 as amended, the part that does hold: the store flush and reset are
atomic with respect to folds, because folds, the raw tick and the flush
all execute as whole steps of the single scheduler control loop.  For
every event sequence, every handed-off record's contribution sits either
in the current store or in exactly one drained batch: counts are
conserved.  (The raw counter itself is *not* covered by this argument;
see `raw_reset_lost_increment_counterexample`.) -/
theorem sched_conservation (evs : List SchedEvent)
    (h : ∀ m, SchedEvent.handoff m ∈ evs → m.count = 1) :
    totalCount (runSched evs).store + flushedTotal (runSched evs) = countHandoffs evs := by
  have aux : ∀ (l : List SchedEvent) (st : SchedState),
      (∀ m, SchedEvent.handoff m ∈ l → m.count = 1) →
      totalCount (l.foldl schedStep st).store + flushedTotal (l.foldl schedStep st)
        = totalCount st.store + flushedTotal st + countHandoffs l := by
    intro l
    induction l with
    | nil =>
      intro st _
      simp [countHandoffs]
    | cons e tl ih =>
      intro st hl
      have htl : ∀ m', SchedEvent.handoff m' ∈ tl → m'.count = 1 :=
        fun m' hmem => hl m' (List.mem_cons_of_mem _ hmem)
      cases e with
      | handoff m =>
        have hm : m.count = 1 := hl m (List.mem_cons_self _ _)
        simp only [List.foldl_cons]
        rw [ih _ htl]
        simp [schedStep, flushedTotal, totalCount_update _ _ hm, countHandoffs]
        omega
      | rawTick =>
        simp only [List.foldl_cons]
        rw [ih _ htl]
        simp [schedStep, countHandoffs]
      | flushTick =>
        simp only [List.foldl_cons]
        rw [ih _ htl]
        simp [schedStep, flushedTotal, totalCount, countHandoffs]
        omega
  exact (aux evs ⟨[], []⟩ h).trans (by simp [totalCount, flushedTotal])

/-- Witness for C6's amended theorem on a concrete event sequence with
two hand-offs, a flush and a raw tick. -/
theorem sched_conservation_witness :
    totalCount (runSched [SchedEvent.handoff ⟨"a".data, .finite ⟨1, 1⟩, .finite ⟨1, 1⟩, 0, 1⟩,
        SchedEvent.flushTick, SchedEvent.rawTick,
        SchedEvent.handoff ⟨"b".data, .finite ⟨2, 1⟩, .finite ⟨2, 1⟩, 0, 1⟩]).store +
      flushedTotal (runSched [SchedEvent.handoff ⟨"a".data, .finite ⟨1, 1⟩, .finite ⟨1, 1⟩, 0, 1⟩,
        SchedEvent.flushTick, SchedEvent.rawTick,
        SchedEvent.handoff ⟨"b".data, .finite ⟨2, 1⟩, .finite ⟨2, 1⟩, 0, 1⟩]) =
      countHandoffs [SchedEvent.handoff ⟨"a".data, .finite ⟨1, 1⟩, .finite ⟨1, 1⟩, 0, 1⟩,
        SchedEvent.flushTick, SchedEvent.rawTick,
        SchedEvent.handoff ⟨"b".data, .finite ⟨2, 1⟩, .finite ⟨2, 1⟩, 0, 1⟩] := by
  apply sched_conservation
  intro m hm
  simp only [List.mem_cons, List.not_mem_nil, or_false] at hm
  rcases hm with h | h | h | h
  · cases h
    rfl
  · cases h
  · cases h
  · cases h
    rfl

/-- Counterexample to C7: on a read failure that is not `io.EOF` the
worker does not tear the connection down; the error branch falls through
and the bytes returned by the failed read are processed as usual — here a
well-formed record is parsed and handed off, and the worker does not
terminate. -/
theorem read_error_falls_through_counterexample :
    connStep 0 "cpu\t1\t1970-01-01T00:00:00Z".data (some ReadErr.other) =
      WorkerAction.handoff ⟨"cpu".data, .finite ⟨1, 1⟩, .finite ⟨1, 1⟩, 0, 1⟩ ∧
    terminates (connStep 0 "cpu\t1\t1970-01-01T00:00:00Z".data (some ReadErr.other)) = false := by
  decide

/-- C7 as amended: an orderly end of stream terminates the worker (the
connection is closed and the deferred `Signal` releases the admission
slot), and this is not an error; any other read failure is ignored — the
iteration behaves exactly as if the read had succeeded on the returned
bytes, and the worker terminates only through the subsequent empty-line
or parse-error paths. -/
theorem read_error_behavior (now : ℤ) (b : List Char) :
    connStep now b (some ReadErr.eof) = WorkerAction.terminateEOF ∧
    terminates (connStep now b (some ReadErr.eof)) = true ∧
    connStep now b (some ReadErr.other) = connStep now b none :=
  ⟨rfl, rfl, rfl⟩

/-- C10: the value field accepts everything Go's `strconv.ParseFloat`
accepts, not only plain decimal literals: a value field of `NaN` or `Inf`
parses successfully into a record with a non-finite value, which folding
then propagates into the aggregate's sum and mean. -/
theorem parse_nonfinite_values :
    parseMetric "cpu\tNaN\t2021-01-01T00:00:00Z".data =
      .ok ⟨"cpu".data, .nan, .nan, 1609459200, 1⟩ ∧
    GoFloat.isFinite .nan = false ∧
    parseMetric "cpu\tInf\t2021-01-01T00:00:00Z".data =
      .ok ⟨"cpu".data, .inf false, .inf false, 1609459200, 1⟩ ∧
    GoFloat.isFinite (.inf false) = false ∧
    storeFind (update [("cpu".data, ⟨"cpu".data, .finite ⟨5, 1⟩, .finite ⟨5, 1⟩, 0, 1⟩)]
        ⟨"cpu".data, .nan, .nan, 1609459200, 1⟩).1 "cpu".data =
      some ⟨"cpu".data, .nan, .nan, 1609459200, 2⟩ ∧
    storeFind (update [("cpu".data, ⟨"cpu".data, .finite ⟨5, 1⟩, .finite ⟨5, 1⟩, 0, 1⟩)]
        ⟨"cpu".data, .inf false, .inf false, 1609459200, 1⟩).1 "cpu".data =
      some ⟨"cpu".data, .inf false, .inf false, 1609459200, 2⟩ := by
  decide

theorem string_append_assoc (a b c : String) : (a ++ b) ++ c = a ++ (b ++ c) := by
  apply String.ext
  simp [String.data_append]

theorem fprintlnJoin_three (a c : String) :
    fprintlnJoin [a, "\t", c] = a ++ " \t " ++ c ++ "\n" := by
  show a ++ " " ++ ("\t" ++ " " ++ (c ++ "\n")) = a ++ " \t " ++ c ++ "\n"
  apply String.ext
  simp [String.data_append]

/-- Counterexample to C8: the flushed line for an aggregate named "cpu"
with mean 20 is `cpu ⟨tab⟩ 20` with a space on each side of the tab
(`fmt.Fprintln` separates its operands with spaces), not the claimed bare
`cpu⟨tab⟩20` wire format. -/
theorem flush_line_format_counterexample :
    flushOutput [("cpu".data, ⟨"cpu".data, .finite ⟨20, 1⟩, .finite ⟨20, 1⟩, 0, 1⟩)] =
      ["cpu \t 20\n"] ∧
    ("cpu \t 20\n" : String) ≠ "cpu\t20\n" := by
  constructor
  · show [fprintlnJoin ["cpu", "\t", goFloatRepr (.finite ⟨20, 1⟩)]] = ["cpu \t 20\n"]
    decide
  · decide

/-- C8 as amended: on every flush tick the scheduler emits exactly one
line per aggregate in the store (in store order) and then resets the
store to empty; each line consists of the metric name, a
space-tab-space separator, and the mean, terminated by a newline —
not the bare name-tab-mean format the claim states. -/
theorem flush_tick_behavior (st : SchedState) :
    (schedStep st SchedEvent.flushTick).store = [] ∧
    (schedStep st SchedEvent.flushTick).flushed = st.flushed ++ [st.store] ∧
    flushOutput st.store =
      st.store.map (fun p => String.mk p.2.name ++ " \t " ++ goFloatRepr p.2.mean ++ "\n") := by
  refine ⟨rfl, rfl, ?_⟩
  unfold flushOutput
  apply List.map_congr_left
  intro p _
  exact fprintlnJoin_three (String.mk p.2.name) (goFloatRepr p.2.mean)

theorem dropWhile_append_of_all (f : Char → Bool) (p l : List Char)
    (hp : ∀ c ∈ p, f c = true) : (p ++ l).dropWhile f = l.dropWhile f := by
  induction p with
  | nil => rfl
  | cons c t ih =>
    have hc : f c = true := hp c (List.mem_cons_self _ _)
    simp only [List.cons_append, List.dropWhile_cons, hc, if_true]
    exact ih (fun c' hcm => hp c' (List.mem_cons_of_mem _ hcm))

theorem dropWhile_append_ne (f : Char → Bool) (l q : List Char)
    (h : l.dropWhile f ≠ []) : (l ++ q).dropWhile f = l.dropWhile f ++ q := by
  induction l with
  | nil => simp [List.dropWhile] at h
  | cons c t ih =>
    cases hc : f c
    · simp [List.dropWhile_cons, hc]
    · simp only [List.dropWhile_cons, hc, if_true] at h
      simp only [List.cons_append, List.dropWhile_cons, hc, if_true]
      exact ih h

theorem trimCRLF_append_left (p b : List Char) (hp : ∀ c ∈ p, isCRLF c = true) :
    trimCRLF (p ++ b) = trimCRLF b := by
  unfold trimCRLF
  rw [dropWhile_append_of_all isCRLF p b hp]

theorem trimCRLF_append_right (b q : List Char) (hq : ∀ c ∈ q, isCRLF c = true) :
    trimCRLF (b ++ q) = trimCRLF b := by
  unfold trimCRLF
  by_cases h : b.dropWhile isCRLF = []
  · have hb : ∀ c ∈ b, isCRLF c = true := by
      intro c hc
      exact List.dropWhile_eq_nil_iff.mp h c hc
    have hq' : q.dropWhile isCRLF = [] := List.dropWhile_eq_nil_iff.mpr hq
    rw [dropWhile_append_of_all isCRLF b q hb, h, hq']
  · rw [dropWhile_append_ne isCRLF b q h, List.reverse_append,
      dropWhile_append_of_all isCRLF q.reverse _
        (fun c hc => hq c (List.mem_reverse.mp hc))]

/-- C9: the handler trims CR and LF bytes from both ends of each read
line before the empty-line check and before parsing: surrounding a line
with CR/LF bytes does not change its trimmed form, leading terminators do
not change what the iteration does, and a line consisting only of CR/LF
bytes is treated as the empty-line termination signal. -/
theorem trim_crlf_both_ends (now : ℤ) (p b q : List Char)
    (hp : ∀ c ∈ p, isCRLF c = true) (hq : ∀ c ∈ q, isCRLF c = true) :
    trimCRLF (p ++ b ++ q) = trimCRLF b ∧
    connStep now (p ++ b) none = connStep now b none ∧
    connStep now p none = WorkerAction.terminateEmpty := by
  have h1 : trimCRLF (p ++ b ++ q) = trimCRLF b := by
    rw [trimCRLF_append_right (p ++ b) q hq, trimCRLF_append_left p b hp]
  refine ⟨h1, ?_, ?_⟩
  · have h2 : trimCRLF (p ++ b) = trimCRLF b := trimCRLF_append_left p b hp
    simp only [connStep, h2]
  · have h3 : trimCRLF p = [] := by
      have h4 : trimCRLF (p ++ []) = trimCRLF [] := trimCRLF_append_left p [] hp
      simpa using h4
    simp [connStep, h3]

/-- Witness for C9: a CRLF-wrapped well-formed line trims to the bare
line, a leading CRLF does not change the handler's action, and a
CRLF-only line terminates the worker as an empty line. -/
theorem trim_crlf_both_ends_witness :
    trimCRLF ("\r\n".data ++ "cpu\t1\t1970-01-01T00:00:00Z".data ++ "\r".data) =
      trimCRLF "cpu\t1\t1970-01-01T00:00:00Z".data ∧
    connStep 0 ("\r\n".data ++ "cpu\t1\t1970-01-01T00:00:00Z".data) none =
      connStep 0 "cpu\t1\t1970-01-01T00:00:00Z".data none ∧
    connStep 0 "\r\n".data none = WorkerAction.terminateEmpty :=
  trim_crlf_both_ends 0 "\r\n".data "cpu\t1\t1970-01-01T00:00:00Z".data "\r".data
    (by decide) (by decide)
